import Mathlib

/-!
Verification of the core stateful components of the `outlaw_legal_ai`
repository: the sliding-window rate limiter (`rate_limiter.py`), the
TTL/LRU cache (`cache_manager.py`) and the scoring/risk heuristics of
`legal_engine.py`.  Python floats (timestamps, TTLs) are embedded as
rationals, Python ints as `Int`/`Nat`, Python `dict`s either as total
functions with a default (the `defaultdict` of the rate limiter) or as
association lists with unique keys (the cache's `_cache` dict, whose
length matters).  Fallible operations (Python code that can raise, such
as `min([])`) return `Option`.
-/

namespace Outlaw

/-! ## Rate limiter (`src/rate_limiter.py`) -/

/-- Python `int(x)` on a float/rational: truncation toward zero. -/
def pyTrunc (q : ℚ) : ℤ := if 0 ≤ q then ⌊q⌋ else ⌈q⌉

/-- The configuration of `RateLimiter.__init__`: `max_requests` and
`window_seconds`. -/
structure RateLimiter where
  max_requests : ℕ
  window_seconds : ℚ

/-- The mutable `self.requests : defaultdict(list)` of a `RateLimiter`:
per-client timestamp lists, defaulting to `[]` for unseen clients. -/
def RLState : Type := String → List ℚ

/-- The empty `defaultdict(list)` created by `RateLimiter.__init__`. -/
def RLState.init : RLState := fun _ => []

/-- Point update of the requests dictionary. -/
def RLState.update (st : RLState) (c : String) (l : List ℚ) : RLState :=
  fun x => if x = c then l else st x

/-- `RateLimiter._clean_old_requests`: keep only the timestamps strictly
greater than `current_time - window_seconds`. -/
def cleanOld (L : RateLimiter) (ts : List ℚ) (now : ℚ) : List ℚ :=
  ts.filter (fun t => decide (now - L.window_seconds < t))

/-- `RateLimiter.is_allowed`, returning the `(allowed, remaining,
retry_after)` triple together with the updated requests dictionary.
The rejection branch calls Python's `min` on the pruned list, which
raises on an empty list; this is embedded as `Option.none`. -/
def isAllowed (L : RateLimiter) (st : RLState) (c : String) (now : ℚ) :
    Option ((Bool × ℤ × ℤ) × RLState) :=
  let pruned := cleanOld L (st c) now
  if L.max_requests ≤ pruned.length then
    match pruned.min? with
    | none => none
    | some oldest =>
        some ((false, 0, pyTrunc (oldest + L.window_seconds - now) + 1),
          st.update c pruned)
  else
    some ((true, (L.max_requests : ℤ) - pruned.length - 1, 0),
      st.update c (pruned ++ [now]))

/-- `RateLimiter.reset`: Python's `if client_id:` is falsy both for
`None` and for the empty string, so `reset("")` clears every client. -/
def RLreset (st : RLState) (oc : Option String) : RLState :=
  match oc with
  | some c => if c = "" then RLState.init else st.update c []
  | none => RLState.init

/-- Running a list of `is_allowed` calls (client, time) in order;
a raising call aborts the run with `none`. -/
def runRL (L : RateLimiter) : List (String × ℚ) → RLState → Option RLState
  | [], st => some st
  | (c, now) :: rest, st =>
      match isAllowed L st c now with
      | none => none
      | some (_, st') => runRL L rest st'

/-- Running a list of `is_allowed` calls and collecting the returned
`(allowed, remaining, retry_after)` triples. -/
def runResults (L : RateLimiter) : List (String × ℚ) → RLState →
    Option (List (Bool × ℤ × ℤ))
  | [], _ => some []
  | (c, now) :: rest, st =>
      match isAllowed L st c now with
      | none => none
      | some (r, st') =>
          match runResults L rest st' with
          | none => none
          | some rs => some (r :: rs)

@[simp] theorem RLState.update_apply (st : RLState) (c c' : String) (l : List ℚ) :
    st.update c l c' = if c' = c then l else st c' := rfl

theorem mem_cleanOld {L : RateLimiter} {ts : List ℚ} {now t : ℚ} :
    t ∈ cleanOld L ts now ↔ t ∈ ts ∧ now - L.window_seconds < t := by
  simp [cleanOld]

theorem isAllowed_reject {L : RateLimiter} {st : RLState} {c : String} {now : ℚ}
    (h : L.max_requests ≤ (cleanOld L (st c) now).length)
    {o : ℚ} (ho : (cleanOld L (st c) now).min? = some o) :
    isAllowed L st c now =
      some ((false, 0, pyTrunc (o + L.window_seconds - now) + 1),
        st.update c (cleanOld L (st c) now)) := by
  simp only [isAllowed, if_pos h, ho]

theorem isAllowed_allow {L : RateLimiter} {st : RLState} {c : String} {now : ℚ}
    (h : ¬ L.max_requests ≤ (cleanOld L (st c) now).length) :
    isAllowed L st c now =
      some ((true, (L.max_requests : ℤ) - (cleanOld L (st c) now).length - 1, 0),
        st.update c (cleanOld L (st c) now ++ [now])) := by
  simp only [isAllowed, if_neg h]

/-- Any successful `is_allowed` call stores, for the accessed client,
either the pruned list (rejection) or the pruned list with `now`
appended (admission), and leaves every other client untouched. -/
theorem isAllowed_some_state {L : RateLimiter} {st : RLState} {c : String} {now : ℚ}
    {r : Bool × ℤ × ℤ} {st' : RLState}
    (h : isAllowed L st c now = some (r, st')) :
    st' = st.update c (cleanOld L (st c) now) ∨
      st' = st.update c (cleanOld L (st c) now ++ [now]) := by
  simp only [isAllowed] at h
  split at h
  · cases hmin : (cleanOld L (st c) now).min? with
    | none => rw [hmin] at h; cases h
    | some o => rw [hmin] at h; cases h; exact Or.inl rfl
  · cases h; exact Or.inr rfl

theorem isAllowed_frame {L : RateLimiter} {st : RLState} {c c' : String} {now : ℚ}
    {r : Bool × ℤ × ℤ} {st' : RLState} (hne : c' ≠ c)
    (h : isAllowed L st c now = some (r, st')) : st' c' = st c' := by
  rcases isAllowed_some_state h with h' | h' <;> subst h' <;>
    simp [RLState.update, hne]

theorem isAllowed_mem_state {L : RateLimiter} {st : RLState} {c : String} {now : ℚ}
    {r : Bool × ℤ × ℤ} {st' : RLState}
    (h : isAllowed L st c now = some (r, st')) :
    ∀ t ∈ st' c, t ∈ st c ∨ t = now := by
  intro t ht
  rcases isAllowed_some_state h with h' | h' <;> subst h'
  · simp only [RLState.update_apply, if_pos rfl] at ht
    exact Or.inl (mem_cleanOld.1 ht).1
  · simp only [RLState.update_apply, if_pos rfl] at ht
    rcases List.mem_append.mp ht with ht2 | ht2
    · exact Or.inl (mem_cleanOld.1 ht2).1
    · exact Or.inr (List.mem_singleton.mp ht2)

theorem isAllowed_window_bound {L : RateLimiter} {st : RLState} {c : String}
    {now : ℚ} {r : Bool × ℤ × ℤ} {st' : RLState} (hw : 0 ≤ L.window_seconds)
    (h : isAllowed L st c now = some (r, st')) :
    ∀ t ∈ st' c, now - L.window_seconds ≤ t := by
  intro t ht
  rcases isAllowed_some_state h with h' | h' <;> subst h'
  · simp only [RLState.update_apply, if_pos rfl] at ht
    exact le_of_lt (mem_cleanOld.1 ht).2
  · simp only [RLState.update_apply, if_pos rfl] at ht
    rcases List.mem_append.mp ht with ht2 | ht2
    · exact le_of_lt (mem_cleanOld.1 ht2).2
    · rw [List.mem_singleton.mp ht2]; linarith


theorem pyTrunc_eq_floor {q : ℚ} (h : 0 ≤ q) : pyTrunc q = ⌊q⌋ := if_pos h

theorem runRL_append (L : RateLimiter) (l1 l2 : List (String × ℚ)) (st : RLState) :
    runRL L (l1 ++ l2) st =
      match runRL L l1 st with
      | none => none
      | some st1 => runRL L l2 st1 := by
  induction l1 generalizing st with
  | nil => rfl
  | cons p rest ih =>
      obtain ⟨c, now⟩ := p
      simp only [List.cons_append, runRL]
      cases isAllowed L st c now with
      | none => rfl
      | some q => exact ih q.2

/-- Every timestamp stored after a run is bounded by any upper bound of
the run's call times and of the initial state's timestamps. -/
theorem runRL_all_le (L : RateLimiter) {B : ℚ} :
    ∀ (ops : List (String × ℚ)) (st st' : RLState),
      runRL L ops st = some st' → (∀ p ∈ ops, p.2 ≤ B) →
      (∀ c t, t ∈ st c → t ≤ B) → ∀ c t, t ∈ st' c → t ≤ B := by
  intro ops
  induction ops with
  | nil => intro st st' h _ hst; cases h; exact hst
  | cons p rest ih =>
      intro st st' h hops hst
      obtain ⟨c, now⟩ := p
      simp only [runRL] at h
      cases hstep : isAllowed L st c now with
      | none => rw [hstep] at h; cases h
      | some q =>
          rw [hstep] at h
          refine ih q.2 st' h (fun p hp => hops p (List.mem_cons_of_mem _ hp)) ?_
          intro c' t ht
          by_cases hc : c' = c
          · rw [hc] at ht
            rcases isAllowed_mem_state hstep t ht with hmem | hmem
            · exact hst c t hmem
            · rw [hmem]; exact hops (c, now) (List.mem_cons_self _ _)
          · rw [isAllowed_frame hc hstep] at ht
            exact hst c' t ht

/-- Claim C1: `is_allowed` prunes the client's timestamps to those
strictly inside the window; when the pruned count reaches
`max_requests` it rejects with `retry_after = floor(oldest +
window_seconds - now) + 1 >= 1` and stores exactly the pruned list;
otherwise it appends `now` and admits with `remaining = max_requests -
count_after_append`.  Concretely, with `max_requests = 3` and
`window_seconds = 10`, four immediate calls for a fresh client yield
`(true,2,0)`, `(true,1,0)`, `(true,0,0)`, then a rejection with
`retry_after = 11 > 0`. -/
theorem claim_C1_is_allowed_algorithm :
    (∀ (L : RateLimiter) (st : RLState) (c : String) (now : ℚ),
      1 ≤ L.max_requests →
      (L.max_requests ≤ (cleanOld L (st c) now).length →
        ∃ oldest, (cleanOld L (st c) now).min? = some oldest ∧
          isAllowed L st c now =
            some ((false, 0, ⌊oldest + L.window_seconds - now⌋ + 1),
              st.update c (cleanOld L (st c) now)) ∧
          1 ≤ ⌊oldest + L.window_seconds - now⌋ + 1) ∧
      ((cleanOld L (st c) now).length < L.max_requests →
        isAllowed L st c now =
          some ((true, (L.max_requests : ℤ) - ((cleanOld L (st c) now).length + 1), 0),
            st.update c (cleanOld L (st c) now ++ [now])))) ∧
    runResults ⟨3, 10⟩ [("c1", 0), ("c1", 0), ("c1", 0), ("c1", 0)] RLState.init =
      some [(true, 2, 0), (true, 1, 0), (true, 0, 0), (false, 0, 11)] := by
  constructor
  · intro L st c now _
    constructor
    · intro hfull
      have hne : cleanOld L (st c) now ≠ [] := by
        intro h0
        rw [h0] at hfull
        simp at hfull
        omega
      obtain ⟨oldest, hmin⟩ : ∃ o, (cleanOld L (st c) now).min? = some o := by
        cases hmm : (cleanOld L (st c) now).min? with
        | none => exact absurd (List.min?_eq_none_iff.mp hmm) hne
        | some o => exact ⟨o, rfl⟩
      refine ⟨oldest, hmin, ?_⟩
      have hmem : oldest ∈ cleanOld L (st c) now :=
        List.min?_mem (fun a b => min_choice a b) hmin
      have hwin : now - L.window_seconds < oldest := (mem_cleanOld.1 hmem).2
      have hpos : (0 : ℚ) ≤ oldest + L.window_seconds - now := by linarith
      have hfl : (0 : ℤ) ≤ ⌊oldest + L.window_seconds - now⌋ :=
        Int.floor_nonneg.mpr hpos
      have heq := isAllowed_reject hfull hmin
      rw [pyTrunc_eq_floor hpos] at heq
      exact ⟨heq, by omega⟩
    · intro hroom
      have heq := isAllowed_allow (not_le.mpr hroom)
      have h2 : (L.max_requests : ℤ) - (((cleanOld L (st c) now).length : ℤ) + 1) =
          (L.max_requests : ℤ) - (cleanOld L (st c) now).length - 1 := by ring
      rw [h2, heq]
  · with_unfolding_all decide

theorem claim_C1_is_allowed_algorithm_witness :
    isAllowed ⟨3, 10⟩ RLState.init "c1" 0 =
      some ((true, (3 : ℤ) - ((cleanOld ⟨3, 10⟩ (RLState.init "c1") 0).length + 1), 0),
        RLState.init.update "c1" (cleanOld ⟨3, 10⟩ (RLState.init "c1") 0 ++ [0])) :=
  (claim_C1_is_allowed_algorithm.1 ⟨3, 10⟩ RLState.init "c1" 0 (by decide)).2
    (by decide)

/-- Claim C10: with `max_requests >= 1` (and a positive window),
`is_allowed` is total: the rejection branch takes the minimum of a
list whose length is at least `max_requests >= 1`, so the embedded
`Option` result is always `some`. -/
theorem claim_C10_is_allowed_total (L : RateLimiter) (st : RLState) (c : String)
    (now : ℚ) (hmax : 1 ≤ L.max_requests) (hw : 0 < L.window_seconds) :
    (isAllowed L st c now).isSome := by
  simp only [isAllowed]
  split
  · next hfull =>
      cases hmm : (cleanOld L (st c) now).min? with
      | none =>
          rw [List.min?_eq_none_iff.mp hmm] at hfull
          simp at hfull
          omega
      | some o => simp
  · simp

theorem claim_C10_is_allowed_total_witness :
    (isAllowed ⟨3, 10⟩ RLState.init "c1" 0).isSome :=
  claim_C10_is_allowed_total ⟨3, 10⟩ RLState.init "c1" 0 (by decide)
    (by with_unfolding_all decide)

/-- Claim C7: distinct clients are independent.  A successful
`is_allowed(c1)` call leaves any other client's timestamp list
unchanged; a whole run of calls that never touches `c2` leaves `c2`'s
list unchanged; and the result of `is_allowed(c2)` (triple and the
final `c2` list) depends only on `c2`'s stored list, so exhausting
`c1`'s quota cannot affect `c2`'s admission. -/
theorem claim_C7_client_independence :
    (∀ (L : RateLimiter) (st : RLState) (c1 c2 : String) (now : ℚ)
        (r : Bool × ℤ × ℤ) (st' : RLState), c1 ≠ c2 →
        isAllowed L st c1 now = some (r, st') → st' c2 = st c2) ∧
    (∀ (L : RateLimiter) (ops : List (String × ℚ)) (st st' : RLState) (c2 : String),
        (∀ p ∈ ops, p.1 ≠ c2) → runRL L ops st = some st' → st' c2 = st c2) ∧
    (∀ (L : RateLimiter) (sta stb : RLState) (c2 : String) (now : ℚ),
        sta c2 = stb c2 →
        Option.map (fun p => (p.1, p.2 c2)) (isAllowed L sta c2 now) =
          Option.map (fun p => (p.1, p.2 c2)) (isAllowed L stb c2 now)) := by
  refine ⟨?_, ?_, ?_⟩
  · intro L st c1 c2 now r st' hne h
    exact isAllowed_frame (fun hx => hne hx.symm) h
  · intro L ops
    induction ops with
    | nil => intro st st' c2 _ h; cases h; rfl
    | cons p rest ih =>
        intro st st' c2 hops h
        obtain ⟨c, tnow⟩ := p
        simp only [runRL] at h
        cases hstep : isAllowed L st c tnow with
        | none => rw [hstep] at h; cases h
        | some q =>
            rw [hstep] at h
            have h1 : q.2 c2 = st c2 := by
              have hne : c2 ≠ c := by
                intro hx
                exact hops (c, tnow) (List.mem_cons_self _ _) (by rw [hx])
              exact isAllowed_frame hne (by rw [hstep])
            rw [ih q.2 st' c2 (fun p hp => hops p (List.mem_cons_of_mem _ hp)) h, h1]
  · intro L sta stb c2 now h
    by_cases hc : L.max_requests ≤ (cleanOld L (stb c2) now).length
    · have hc' : L.max_requests ≤ (cleanOld L (sta c2) now).length := by rw [h]; exact hc
      cases hmm : (cleanOld L (stb c2) now).min? with
      | none =>
          have hmm' : (cleanOld L (sta c2) now).min? = none := by rw [h]; exact hmm
          simp only [isAllowed, if_pos hc, if_pos hc', hmm, hmm']
      | some o =>
          have hmm' : (cleanOld L (sta c2) now).min? = some o := by rw [h]; exact hmm
          simp only [isAllowed, if_pos hc, if_pos hc', hmm, hmm', h]
          simp [RLState.update]
    · have hc' : ¬ L.max_requests ≤ (cleanOld L (sta c2) now).length := by
        rw [h]; exact hc
      simp only [isAllowed, if_neg hc, if_neg hc', h]
      simp [RLState.update]

theorem claim_C7_client_independence_witness :
    Option.map (fun p => (p.1, p.2 "c1"))
        (isAllowed ⟨3, 10⟩ (RLState.init.update "c2" [7]) "c1" 0) =
      Option.map (fun p => (p.1, p.2 "c1")) (isAllowed ⟨3, 10⟩ RLState.init "c1" 0) :=
  claim_C7_client_independence.2.2 ⟨3, 10⟩ (RLState.init.update "c2" [7])
    RLState.init "c1" 0 (by decide)

/-- Claim C8 counterexample: `reset` with the empty-string client id.
Python's `if client_id:` is falsy for `""`, so `reset("")` falls into
the clear-all branch and discards OTHER clients' histories too: with
client `"x"` holding one timestamp, `reset("")` empties `"x"`'s list,
contradicting the claim that `reset(c)` leaves every other client's
stored timestamps unchanged. -/
theorem claim_C8_reset_counterexample :
    RLreset (RLState.init.update "x" [5]) (some "") "x" ≠
      (RLState.init.update "x" [5]) "x" := by decide

/-- Claim C8 (amended): for every NON-EMPTY client id `c`, `reset(c)`
discards exactly client `c`'s history, leaving every other client
unchanged, and the next `is_allowed(c)` starts a fresh window with full
quota; `reset()` with no argument discards all clients' histories and
restores full quota for every client. -/
theorem claim_C8_reset_amended :
    (∀ (st : RLState) (c : String), c ≠ "" →
      RLreset st (some c) c = [] ∧
      ∀ c', c' ≠ c → RLreset st (some c) c' = st c') ∧
    (∀ (st : RLState) (c : String), RLreset st none c = []) ∧
    (∀ (L : RateLimiter) (st : RLState) (c : String) (now : ℚ),
      c ≠ "" → 1 ≤ L.max_requests →
      Option.map Prod.fst (isAllowed L (RLreset st (some c)) c now) =
        some (true, (L.max_requests : ℤ) - 1, 0)) ∧
    (∀ (L : RateLimiter) (st : RLState) (c : String) (now : ℚ),
      1 ≤ L.max_requests →
      Option.map Prod.fst (isAllowed L (RLreset st none) c now) =
        some (true, (L.max_requests : ℤ) - 1, 0)) := by
  have hfresh : ∀ (L : RateLimiter) (st : RLState) (c : String) (now : ℚ),
      st c = [] → 1 ≤ L.max_requests →
      Option.map Prod.fst (isAllowed L st c now) =
        some (true, (L.max_requests : ℤ) - 1, 0) := by
    intro L st c now hempty hmax
    have hlen : ¬ L.max_requests ≤ (cleanOld L (st c) now).length := by
      rw [hempty]
      simp [cleanOld]
      omega
    rw [isAllowed_allow hlen, hempty]
    simp [cleanOld]
  refine ⟨?_, ?_, ?_, ?_⟩
  · intro st c hc
    refine ⟨?_, ?_⟩
    · simp [RLreset, hc, RLState.update]
    · intro c' hc'
      simp [RLreset, hc, RLState.update, hc']
  · intro st c
    rfl
  · intro L st c now hc hmax
    refine hfresh L _ c now ?_ hmax
    simp [RLreset, hc, RLState.update]
  · intro L st c now hmax
    exact hfresh L _ c now rfl hmax

theorem claim_C8_reset_amended_witness :
    RLreset (RLState.init.update "x" [5]) (some "c1") "x" =
      (RLState.init.update "x" [5]) "x" :=
  (claim_C8_reset_amended.1 (RLState.init.update "x" [5]) "c1" (by decide)).2
    "x" (by decide)

/-- Claim C6: immediately after a successful `is_allowed(c)` call made
at time `now` at the end of a time-monotone run started from the empty
state, every timestamp stored for `c` lies within
`[now - window_seconds, now]`; pruning happens only for the accessed
client (any other client's list is untouched by the call), so another
client can retain a stale timestamp, as the concrete second conjunct
shows (client `"c2"` keeps timestamp `0`, stale at time `100` for a
window of `10`). -/
theorem claim_C6_window_invariant :
    (∀ (L : RateLimiter) (ops : List (String × ℚ)) (c : String) (now : ℚ)
        (st' : RLState), 0 ≤ L.window_seconds →
        (∀ p ∈ ops, p.2 ≤ now) →
        runRL L (ops ++ [(c, now)]) RLState.init = some st' →
        ∀ t ∈ st' c, now - L.window_seconds ≤ t ∧ t ≤ now) ∧
    (∀ (L : RateLimiter) (st : RLState) (c c' : String) (now : ℚ)
        (r : Bool × ℤ × ℤ) (st' : RLState), c' ≠ c →
        isAllowed L st c now = some (r, st') → st' c' = st c') ∧
    (Option.map (fun p => p.2 "c2")
        (isAllowed ⟨100, 10⟩ (RLState.init.update "c2" [0]) "c1" 100) =
          some [0] ∧ (0 : ℚ) < 100 - 10) := by
  refine ⟨?_, ?_, ?_, ?_⟩
  · intro L ops c now st' hw hops hrun
    rw [runRL_append] at hrun
    cases hmid : runRL L ops RLState.init with
    | none => rw [hmid] at hrun; cases hrun
    | some stm =>
        rw [hmid] at hrun
        simp only [runRL] at hrun
        cases hstep : isAllowed L stm c now with
        | none => rw [hstep] at hrun; cases hrun
        | some q =>
            rw [hstep] at hrun
            cases hrun
            intro t ht
            refine ⟨isAllowed_window_bound hw hstep t ht, ?_⟩
            rcases isAllowed_mem_state hstep t ht with hmem | hmem
            · refine runRL_all_le L ops RLState.init stm hmid hops ?_ c t hmem
              intro c' t' ht'
              cases ht'
            · rw [hmem]
  · intro L st c c' now r st' hne h
    exact isAllowed_frame hne h
  · with_unfolding_all decide
  · with_unfolding_all decide

theorem claim_C6_window_invariant_witness :
    (1 : ℚ) - 10 ≤ 0 ∧ (0 : ℚ) ≤ 1 :=
  claim_C6_window_invariant.1 ⟨3, 10⟩ [("c1", 0)] "c1" 1
    ((RLState.init.update "c1" ([] ++ [0])).update "c1"
      (cleanOld ⟨3, 10⟩ ((RLState.init.update "c1" ([] ++ [0])) "c1") 1 ++ [1]))
    (by with_unfolding_all decide)
    (by with_unfolding_all decide)
    (by with_unfolding_all rfl)
    0 (by with_unfolding_all decide)

/-! ## TTL/LRU cache (`src/cache_manager.py`) -/

/-- A `CacheEntry`: stored value plus absolute expiry time
(`expires_at = time.time() + ttl` at creation). -/
structure CacheEntry (α : Type) where
  value : α
  expires_at : ℚ
  deriving DecidableEq

/-- `CacheEntry.is_expired` at an explicit current time:
`time.time() > self.expires_at`. -/
def CacheEntry.isExpired (e : CacheEntry α) (now : ℚ) : Bool :=
  decide (e.expires_at < now)

/-- The state of a `SimpleCache`: the `_cache` dict (an association
list with unique keys, insertion order irrelevant to the semantics but
length significant), `_max_size`, and the `_access_order` list. -/
@[ext] structure SimpleCache (α : Type) where
  cache : List (String × CacheEntry α)
  max_size : ℕ
  access_order : List String

/-- `SimpleCache.__init__(max_size)`. -/
def SimpleCache.init (α : Type) (max_size : ℕ) : SimpleCache α :=
  ⟨[], max_size, []⟩

/-- Dictionary lookup `self._cache.get(key)`. -/
def lookupKey : List (String × β) → String → Option β
  | [], _ => none
  | (k', v) :: t, k => if k' = k then some v else lookupKey t k

/-- Dictionary removal `self._cache.pop(key, None)` / `del self._cache[key]`
(no-op when the key is absent). -/
def eraseKey : List (String × β) → String → List (String × β)
  | [], _ => []
  | (k', v) :: t, k => if k' = k then t else (k', v) :: eraseKey t k

/-- Dictionary assignment `self._cache[key] = entry` (replaces in place
or appends). -/
def insertKey : List (String × β) → String → β → List (String × β)
  | [], k, v => [(k, v)]
  | (k', v') :: t, k, v => if k' = k then (k, v) :: t else (k', v') :: insertKey t k v

/-- `SimpleCache._evict_if_needed`: when the cache holds at least
`max_size` entries and the access-order list is non-empty, pop its
front key and drop that entry. -/
def SimpleCache.evictIfNeeded (c : SimpleCache α) : SimpleCache α :=
  if c.max_size ≤ c.cache.length then
    match c.access_order with
    | [] => c
    | k :: rest => { c with cache := eraseKey c.cache k, access_order := rest }
  else c

/-- `SimpleCache.get` at an explicit current time, returning the value
(or absent) together with the updated cache. -/
def SimpleCache.get (c : SimpleCache α) (key : String) (now : ℚ) :
    Option α × SimpleCache α :=
  match lookupKey c.cache key with
  | none => (none, c)
  | some e =>
      if e.isExpired now then
        (none, { c with cache := eraseKey c.cache key,
                        access_order := c.access_order.erase key })
      else
        (some e.value, { c with access_order := c.access_order.erase key ++ [key] })

/-- `SimpleCache.set` at an explicit current time. -/
def SimpleCache.set (c : SimpleCache α) (key : String) (v : α) (ttl now : ℚ) :
    SimpleCache α :=
  let c1 := c.evictIfNeeded
  { c1 with cache := insertKey c1.cache key ⟨v, now + ttl⟩,
            access_order := c1.access_order.erase key ++ [key] }

/-- `SimpleCache.clear`. -/
def SimpleCache.clear (c : SimpleCache α) : SimpleCache α :=
  { c with cache := [], access_order := [] }

/-- One cache operation (`get`, `set` or `clear`) with its explicit
call time. -/
inductive CacheOp (α : Type) where
  | get (key : String) (now : ℚ)
  | set (key : String) (v : α) (ttl : ℚ) (now : ℚ)
  | clear

/-- Applying one operation to the cache state. -/
def CacheOp.step (c : SimpleCache α) : CacheOp α → SimpleCache α
  | .get k now => (c.get k now).2
  | .set k v ttl now => c.set k v ttl now
  | .clear => c.clear

/-- Running a sequence of cache operations. -/
def runCache (c : SimpleCache α) (ops : List (CacheOp α)) : SimpleCache α :=
  ops.foldl CacheOp.step c

/-- The cache's structural invariant: the access-order list is a
permutation of the stored keys (hence: exactly the stored keys, no
duplicates, no extras), the stored keys are pairwise distinct, and the
entry count never exceeds `max_size`. -/
def CacheInv (c : SimpleCache α) : Prop :=
  c.access_order.Perm (c.cache.map Prod.fst) ∧
    (c.cache.map Prod.fst).Nodup ∧ c.cache.length ≤ c.max_size

theorem map_fst_eraseKey (l : List (String × β)) (k : String) :
    (eraseKey l k).map Prod.fst = (l.map Prod.fst).erase k := by
  induction l with
  | nil => rfl
  | cons p t ih =>
      obtain ⟨k', v⟩ := p
      by_cases h : k' = k
      · simp [eraseKey, h, List.erase_cons]
      · simp [eraseKey, h, List.erase_cons, ih]

theorem map_fst_insertKey_of_mem (l : List (String × β)) (k : String) (v : β)
    (h : k ∈ l.map Prod.fst) :
    (insertKey l k v).map Prod.fst = l.map Prod.fst := by
  induction l with
  | nil => simp at h
  | cons p t ih =>
      obtain ⟨k', v'⟩ := p
      by_cases hk : k' = k
      · simp [insertKey, hk]
      · simp only [List.map_cons, List.mem_cons] at h
        rcases h with h1 | h1
        · exact absurd h1.symm hk
        · simp [insertKey, hk, ih h1]

theorem map_fst_insertKey_of_not_mem (l : List (String × β)) (k : String) (v : β)
    (h : k ∉ l.map Prod.fst) :
    (insertKey l k v).map Prod.fst = l.map Prod.fst ++ [k] := by
  induction l with
  | nil => rfl
  | cons p t ih =>
      obtain ⟨k', v'⟩ := p
      simp only [List.map_cons, List.mem_cons] at h
      push_neg at h
      simp [insertKey, Ne.symm h.1, ih h.2]

theorem insertKey_of_not_mem (l : List (String × β)) (k : String) (v : β)
    (h : k ∉ l.map Prod.fst) : insertKey l k v = l ++ [(k, v)] := by
  induction l with
  | nil => rfl
  | cons p t ih =>
      obtain ⟨k', v'⟩ := p
      simp only [List.map_cons, List.mem_cons] at h
      push_neg at h
      simp [insertKey, Ne.symm h.1, ih h.2]

theorem lookupKey_eq_none (l : List (String × β)) (k : String) :
    lookupKey l k = none ↔ k ∉ l.map Prod.fst := by
  induction l with
  | nil => simp [lookupKey]
  | cons p t ih =>
      obtain ⟨k', v⟩ := p
      by_cases h : k' = k
      · simp [lookupKey, h]
      · simp [lookupKey, h, ih, Ne.symm h]

theorem lookupKey_mem {l : List (String × β)} {k : String} {e : β}
    (h : lookupKey l k = some e) : k ∈ l.map Prod.fst := by
  induction l with
  | nil => cases h
  | cons p t ih =>
      obtain ⟨k', v⟩ := p
      by_cases hk : k' = k
      · simp [hk]
      · simp only [lookupKey, if_neg hk] at h
        simp [ih h]

theorem lookupKey_of_mem_nodup {l : List (String × β)} {k : String} {e : β}
    (hmem : (k, e) ∈ l) (hnd : (l.map Prod.fst).Nodup) : lookupKey l k = some e := by
  induction l with
  | nil => cases hmem
  | cons p t ih =>
      obtain ⟨k', v⟩ := p
      simp only [List.map_cons, List.nodup_cons] at hnd
      rcases List.mem_cons.mp hmem with h | h
      · cases h
        simp [lookupKey]
      · have hk : k' ≠ k := by
          intro hx
          exact hnd.1 (hx ▸ (List.mem_map_of_mem Prod.fst h))
        simp [lookupKey, hk, ih h hnd.2]

theorem length_eraseKey (l : List (String × β)) (k : String) :
    (eraseKey l k).length = ((l.map Prod.fst).erase k).length := by
  rw [← map_fst_eraseKey]
  exact (List.length_map _ _).symm

theorem length_insertKey_of_mem (l : List (String × β)) (k : String) (v : β)
    (h : k ∈ l.map Prod.fst) : (insertKey l k v).length = l.length := by
  have := map_fst_insertKey_of_mem l k v h
  have h1 : (insertKey l k v).length = ((insertKey l k v).map Prod.fst).length :=
    (List.length_map _ _).symm
  rw [h1, this, List.length_map]

theorem length_insertKey_of_not_mem (l : List (String × β)) (k : String) (v : β)
    (h : k ∉ l.map Prod.fst) : (insertKey l k v).length = l.length + 1 := by
  rw [insertKey_of_not_mem l k v h]
  simp

/-- Claim C3: `get` returns absent on a missing key (state unchanged);
on a present-but-expired key (`now > expires_at`) it returns absent and
removes both the entry and its access-order record; otherwise it moves
the key to the most-recently-used (last) position and returns the
stored value.  A stored entry is never returned once `now >
expires_at`. -/
theorem claim_C3_cache_get :
    (∀ (α : Type) (c : SimpleCache α) (key : String) (now : ℚ),
      (lookupKey c.cache key = none → c.get key now = (none, c)) ∧
      (∀ e, lookupKey c.cache key = some e → e.expires_at < now →
        c.get key now =
          (none, ⟨eraseKey c.cache key, c.max_size, c.access_order.erase key⟩)) ∧
      (∀ e, lookupKey c.cache key = some e → ¬ e.expires_at < now →
        c.get key now =
          (some e.value, ⟨c.cache, c.max_size, c.access_order.erase key ++ [key]⟩) ∧
        (c.access_order.erase key ++ [key]).getLast? = some key)) ∧
    (∀ (α : Type) (c : SimpleCache α) (key : String) (now : ℚ) (v : α),
      (c.get key now).1 = some v →
      ∃ e, lookupKey c.cache key = some e ∧ ¬ e.expires_at < now ∧ v = e.value) := by
  constructor
  · intro α c key now
    refine ⟨?_, ?_, ?_⟩
    · intro h
      simp [SimpleCache.get, h]
    · intro e he hexp
      simp [SimpleCache.get, he, CacheEntry.isExpired, hexp]
    · intro e he hexp
      refine ⟨by simp [SimpleCache.get, he, CacheEntry.isExpired, hexp], ?_⟩
      simp
  · intro α c key now v h
    simp only [SimpleCache.get] at h
    cases he : lookupKey c.cache key with
    | none => rw [he] at h; cases h
    | some e =>
        rw [he] at h
        by_cases hexp : e.expires_at < now
        · simp [CacheEntry.isExpired, hexp] at h
        · simp [CacheEntry.isExpired, hexp] at h
          exact ⟨e, rfl, hexp, h.symm⟩

theorem claim_C3_cache_get_witness :
    SimpleCache.get (α := ℤ) ⟨[("a", ⟨5, 10⟩)], 3, ["a"]⟩ "a" 1 =
      (some 5, ⟨[("a", ⟨5, 10⟩)], 3, (["a"] : List String).erase "a" ++ ["a"]⟩) :=
  (((claim_C3_cache_get.1 ℤ ⟨[("a", ⟨5, 10⟩)], 3, ["a"]⟩ "a" 1).2.2 ⟨5, 10⟩
    (by decide) (by with_unfolding_all decide)).1)

theorem evict_inv {α : Type} {c : SimpleCache α} (hinv : CacheInv c)
    (hmax : 1 ≤ c.max_size) :
    CacheInv c.evictIfNeeded ∧ c.evictIfNeeded.cache.length < c.max_size ∧
      c.evictIfNeeded.max_size = c.max_size := by
  obtain ⟨hperm, hnd, hlen⟩ := hinv
  by_cases hfull : c.max_size ≤ c.cache.length
  · have hlen_eq : c.cache.length = c.max_size := le_antisymm hlen hfull
    cases ho : c.access_order with
    | nil =>
        rw [ho] at hperm
        have h1 : c.cache.map Prod.fst = [] := List.nil_perm.mp hperm
        have h2 : c.cache = [] := List.map_eq_nil_iff.mp h1
        rw [h2] at hlen_eq
        simp at hlen_eq
        omega
    | cons k0 rest =>
        have hk0o : k0 ∈ c.access_order := by rw [ho]; exact List.mem_cons_self _ _
        have hk0 : k0 ∈ c.cache.map Prod.fst := hperm.mem_iff.mp hk0o
        have hev : c.evictIfNeeded =
            { c with cache := eraseKey c.cache k0, access_order := rest } := by
          simp [SimpleCache.evictIfNeeded, hfull, ho]
        rw [hev]
        have hpe : rest.Perm ((c.cache.map Prod.fst).erase k0) := by
          have h3 := hperm.erase k0
          rw [ho, List.erase_cons_head] at h3
          exact h3
        have hlen2 : (eraseKey c.cache k0).length + 1 = c.cache.length := by
          rw [length_eraseKey]
          have := List.length_erase_of_mem hk0
          rw [this, List.length_map]
          have hpos : 1 ≤ c.cache.length := by omega
          omega
        refine ⟨⟨?_, ?_, ?_⟩, ?_, rfl⟩
        · rw [map_fst_eraseKey]; exact hpe
        · rw [map_fst_eraseKey]; exact hnd.erase k0
        · simp only []
          omega
        · simp only []
          omega
  · have hev : c.evictIfNeeded = c := by
      simp [SimpleCache.evictIfNeeded, hfull]
    rw [hev]
    exact ⟨⟨hperm, hnd, hlen⟩, not_le.mp hfull, rfl⟩

theorem promote_perm {order keys : List String} {k : String}
    (hperm : order.Perm keys) (hk : k ∈ keys) :
    (order.erase k ++ [k]).Perm keys := by
  have hko : k ∈ order := hperm.mem_iff.mpr hk
  exact ((List.perm_append_singleton _ _).trans
    (List.perm_cons_erase hko).symm).trans hperm

theorem getLast_append_singleton (l : List String) (k : String) :
    (l ++ [k]).getLast? = some k := by
  induction l with
  | nil => rfl
  | cons a t ih =>
      rw [List.cons_append, List.getLast?_cons, ih]
      cases t <;> simp

theorem set_inv {α : Type} {c : SimpleCache α} (hinv : CacheInv c)
    (hmax : 1 ≤ c.max_size) (k : String) (v : α) (ttl now : ℚ) :
    CacheInv (c.set k v ttl now) ∧ (c.set k v ttl now).max_size = c.max_size ∧
      (c.set k v ttl now).access_order.getLast? = some k := by
  obtain ⟨⟨hperm, hnd, hlen⟩, hroom, hms⟩ := evict_inv hinv hmax
  have hca : (c.set k v ttl now).cache =
      insertKey c.evictIfNeeded.cache k ⟨v, now + ttl⟩ := rfl
  have hao : (c.set k v ttl now).access_order =
      c.evictIfNeeded.access_order.erase k ++ [k] := rfl
  have hm : (c.set k v ttl now).max_size = c.evictIfNeeded.max_size := rfl
  refine ⟨⟨?_, ?_, ?_⟩, hm.trans hms, by rw [hao]; exact getLast_append_singleton _ _⟩
  · rw [hca, hao]
    by_cases hk : k ∈ c.evictIfNeeded.cache.map Prod.fst
    · rw [map_fst_insertKey_of_mem _ _ _ hk]
      exact promote_perm hperm hk
    · rw [map_fst_insertKey_of_not_mem _ _ _ hk]
      have hko : k ∉ c.evictIfNeeded.access_order :=
        fun hx => hk (hperm.mem_iff.mp hx)
      rw [List.erase_of_not_mem hko]
      exact hperm.append_right [k]
  · rw [hca]
    by_cases hk : k ∈ c.evictIfNeeded.cache.map Prod.fst
    · rw [map_fst_insertKey_of_mem _ _ _ hk]
      exact hnd
    · rw [map_fst_insertKey_of_not_mem _ _ _ hk]
      refine (List.perm_append_singleton _ _).nodup_iff.mpr ?_
      exact List.nodup_cons.mpr ⟨hk, hnd⟩
  · rw [hca, hm]
    by_cases hk : k ∈ c.evictIfNeeded.cache.map Prod.fst
    · rw [length_insertKey_of_mem _ _ _ hk]
      omega
    · rw [length_insertKey_of_not_mem _ _ _ hk]
      omega

theorem get_inv {α : Type} {c : SimpleCache α} (hinv : CacheInv c)
    (k : String) (now : ℚ) :
    CacheInv (c.get k now).2 ∧ (c.get k now).2.max_size = c.max_size := by
  obtain ⟨hperm, hnd, hlen⟩ := hinv
  cases he : lookupKey c.cache k with
  | none =>
      have h : c.get k now = (none, c) := by simp [SimpleCache.get, he]
      rw [h]
      exact ⟨⟨hperm, hnd, hlen⟩, rfl⟩
  | some e =>
      by_cases hexp : e.isExpired now = true
      · have h : c.get k now =
            (none, ⟨eraseKey c.cache k, c.max_size, c.access_order.erase k⟩) := by
          simp [SimpleCache.get, he, hexp]
        rw [h]
        refine ⟨⟨?_, ?_, ?_⟩, rfl⟩
        · show (c.access_order.erase k).Perm ((eraseKey c.cache k).map Prod.fst)
          rw [map_fst_eraseKey]
          exact hperm.erase k
        · show ((eraseKey c.cache k).map Prod.fst).Nodup
          rw [map_fst_eraseKey]
          exact hnd.erase k
        · show (eraseKey c.cache k).length ≤ c.max_size
          rw [length_eraseKey]
          have h1 := (List.erase_sublist k (c.cache.map Prod.fst)).length_le
          rw [List.length_map] at h1
          omega
      · have h : c.get k now =
            (some e.value, ⟨c.cache, c.max_size, c.access_order.erase k ++ [k]⟩) := by
          simp [SimpleCache.get, he, hexp]
        rw [h]
        exact ⟨⟨promote_perm hperm (lookupKey_mem he), hnd, hlen⟩, rfl⟩

theorem step_inv {α : Type} {c : SimpleCache α} (hinv : CacheInv c)
    (hmax : 1 ≤ c.max_size) (op : CacheOp α) :
    CacheInv (CacheOp.step c op) ∧ (CacheOp.step c op).max_size = c.max_size := by
  cases op with
  | get k now => exact get_inv hinv k now
  | set k v ttl now =>
      obtain ⟨h1, h2, _⟩ := set_inv hinv hmax k v ttl now
      exact ⟨h1, h2⟩
  | clear =>
      refine ⟨⟨List.Perm.refl _, List.nodup_nil, ?_⟩, rfl⟩
      show (0 : ℕ) ≤ c.max_size
      omega

theorem runCache_inv {α : Type} :
    ∀ (ops : List (CacheOp α)) (c : SimpleCache α), CacheInv c → 1 ≤ c.max_size →
      CacheInv (runCache c ops) ∧ (runCache c ops).max_size = c.max_size := by
  intro ops
  induction ops with
  | nil => intro c h _; exact ⟨h, rfl⟩
  | cons op rest ih =>
      intro c h hmax
      obtain ⟨h1, h2⟩ := step_inv h hmax op
      obtain ⟨h3, h4⟩ := ih (CacheOp.step c op) h1 (by rw [h2]; exact hmax)
      have hr : runCache c (op :: rest) = runCache (CacheOp.step c op) rest := rfl
      rw [hr]
      exact ⟨h3, by rw [h4, h2]⟩

/-- Claim C4: starting from a cache with `max_size = N >= 1`, after any
sequence of `get`/`set`/`clear` operations the entry count is at most
`max_size` (in particular after any `set`), the access-order list holds
exactly the currently stored keys with no duplicates, and the key of a
trailing `set` sits in the most-recently-used (last) position. -/
theorem claim_C4_cache_invariant (α : Type) (N : ℕ) (hN : 1 ≤ N)
    (ops : List (CacheOp α)) :
    CacheInv (runCache (SimpleCache.init α N) ops) ∧
      (runCache (SimpleCache.init α N) ops).max_size = N ∧
      (∀ (k : String) (v : α) (ttl now : ℚ),
        (runCache (SimpleCache.init α N)
          (ops ++ [CacheOp.set k v ttl now])).access_order.getLast? = some k) := by
  have hinit : CacheInv (SimpleCache.init α N) := by
    refine ⟨List.Perm.refl _, List.nodup_nil, ?_⟩
    show (0 : ℕ) ≤ N
    omega
  obtain ⟨h1, h2⟩ := runCache_inv ops (SimpleCache.init α N) hinit hN
  refine ⟨h1, h2, ?_⟩
  intro k v ttl now
  have happ : runCache (SimpleCache.init α N) (ops ++ [CacheOp.set k v ttl now]) =
      CacheOp.step (runCache (SimpleCache.init α N) ops)
        (CacheOp.set k v ttl now) := by
    simp [runCache, List.foldl_append]
  rw [happ]
  exact (set_inv h1 (by rw [h2]; exact hN) k v ttl now).2.2

theorem claim_C4_cache_invariant_witness :
    CacheInv (runCache (SimpleCache.init ℤ 2)
      [CacheOp.set "a" 1 5 0, CacheOp.set "b" 2 5 0, CacheOp.set "c" 3 5 0,
       CacheOp.get "a" 0]) :=
  (claim_C4_cache_invariant ℤ 2 (by decide)
    [CacheOp.set "a" 1 5 0, CacheOp.set "b" 2 5 0, CacheOp.set "c" 3 5 0,
     CacheOp.get "a" 0]).1

/-- The cache state reached by `set`-ting the given `(key, value, ttl)`
items, in order, at one instant `now`, into a cache of capacity `N`
that previously held exactly the items of a shorter history: entries
`(key, value, now + ttl)` in insertion order, access order = key
order. -/
def stateOfList (α : Type) (N : ℕ) (now : ℚ) (items : List (String × α × ℚ)) :
    SimpleCache α :=
  ⟨items.map (fun it => (it.1, ⟨it.2.1, now + it.2.2⟩)), N, items.map Prod.fst⟩

/-- The `set` calls corresponding to a list of `(key, value, ttl)`
items, all at time `now`. -/
def setOps (now : ℚ) (items : List (String × α × ℚ)) : List (CacheOp α) :=
  items.map (fun it => CacheOp.set it.1 it.2.1 it.2.2 now)

theorem map_fst_stateOfList (α : Type) (N : ℕ) (now : ℚ)
    (items : List (String × α × ℚ)) :
    (stateOfList α N now items).cache.map Prod.fst = items.map Prod.fst := by
  simp [stateOfList, List.map_map]

theorem evictIfNeeded_not_full {α : Type} (c : SimpleCache α)
    (h : ¬ c.max_size ≤ c.cache.length) : c.evictIfNeeded = c := by
  simp [SimpleCache.evictIfNeeded, h]

theorem evictIfNeeded_full {α : Type} (cache : List (String × CacheEntry α))
    (N : ℕ) (k0 : String) (rest : List String) (h : N ≤ cache.length) :
    SimpleCache.evictIfNeeded ⟨cache, N, k0 :: rest⟩ =
      ⟨eraseKey cache k0, N, rest⟩ := by
  simp [SimpleCache.evictIfNeeded, h]

theorem runCache_sets_no_evict {α : Type} (now : ℚ) :
    ∀ (todo done : List (String × α × ℚ)) (N : ℕ),
      ((done ++ todo).map Prod.fst).Nodup →
      (done ++ todo).length ≤ N →
      runCache (stateOfList α N now done) (setOps now todo) =
        stateOfList α N now (done ++ todo) := by
  intro todo
  induction todo with
  | nil => intro done N _ _; simp [setOps, runCache]
  | cons it rest ih =>
      intro done N hnd hlen
      have hmemno : it.1 ∉ done.map Prod.fst := by
        have h1 : ((done ++ it :: rest).map Prod.fst).Nodup := hnd
        rw [List.map_append, List.nodup_append] at h1
        intro hx
        exact h1.2.2 hx (by simp)
      have hlt : ¬ (stateOfList α N now done).max_size ≤
          (stateOfList α N now done).cache.length := by
        show ¬ N ≤ (done.map (fun it =>
          ((it.1 : String), (⟨it.2.1, now + it.2.2⟩ : CacheEntry α)))).length
        rw [List.length_map]
        simp only [List.length_append, List.length_cons] at hlen
        omega
      have hev : (stateOfList α N now done).evictIfNeeded =
          stateOfList α N now done := evictIfNeeded_not_full _ hlt
      have hset : (stateOfList α N now done).set it.1 it.2.1 it.2.2 now =
          stateOfList α N now (done ++ [it]) := by
        have hca : ((stateOfList α N now done).set it.1 it.2.1 it.2.2 now).cache =
            insertKey (stateOfList α N now done).evictIfNeeded.cache it.1
              ⟨it.2.1, now + it.2.2⟩ := rfl
        have hao :
            ((stateOfList α N now done).set it.1 it.2.1 it.2.2 now).access_order =
            (stateOfList α N now done).evictIfNeeded.access_order.erase it.1 ++
              [it.1] := rfl
        have hmemno' : it.1 ∉ (stateOfList α N now done).cache.map Prod.fst := by
          rw [map_fst_stateOfList]
          exact hmemno
        refine SimpleCache.ext ?_ ?_ ?_
        · rw [hca, hev, insertKey_of_not_mem _ _ _ hmemno']
          simp [stateOfList]
        · show ((stateOfList α N now done).set it.1 it.2.1 it.2.2 now).max_size = N
          rw [show ((stateOfList α N now done).set it.1 it.2.1 it.2.2 now).max_size =
            (stateOfList α N now done).evictIfNeeded.max_size from rfl, hev]
          rfl
        · rw [hao, hev]
          show (done.map Prod.fst).erase it.1 ++ [it.1] =
            (done ++ [it]).map Prod.fst
          rw [List.erase_of_not_mem hmemno]
          simp
      have hrun : runCache (stateOfList α N now done) (setOps now (it :: rest)) =
          runCache ((stateOfList α N now done).set it.1 it.2.1 it.2.2 now)
            (setOps now rest) := rfl
      rw [hrun, hset, ih (done ++ [it]) N (by simpa using hnd)
        (by simpa using hlen)]
      simp

theorem set_evicts_head {α : Type} (now : ℚ) (k1 : String) (v1 : α) (t1 : ℚ)
    (mid : List (String × α × ℚ)) (lst : String × α × ℚ) (N : ℕ)
    (hN : mid.length + 1 = N)
    (hnd : (((k1, v1, t1) :: mid).map Prod.fst ++ [lst.1]).Nodup) :
    (stateOfList α N now ((k1, v1, t1) :: mid)).set lst.1 lst.2.1 lst.2.2 now =
      stateOfList α N now (mid ++ [lst]) := by
  have hfull : N ≤ (stateOfList α N now ((k1, v1, t1) :: mid)).cache.length := by
    simp only [stateOfList, List.length_map, List.length_cons]
    omega
  have hlst_not : lst.1 ∉ ((k1, v1, t1) :: mid).map Prod.fst := by
    rw [List.nodup_append] at hnd
    intro hx
    exact hnd.2.2 hx (by simp)
  have hev : (stateOfList α N now ((k1, v1, t1) :: mid)).evictIfNeeded =
      ⟨mid.map (fun it => (it.1, ⟨it.2.1, now + it.2.2⟩)), N, mid.map Prod.fst⟩ := by
    rw [show stateOfList α N now ((k1, v1, t1) :: mid) =
      ⟨(k1, ⟨v1, now + t1⟩) :: mid.map (fun it => (it.1, ⟨it.2.1, now + it.2.2⟩)), N,
        k1 :: mid.map Prod.fst⟩ from rfl]
    rw [evictIfNeeded_full _ _ _ _
      (by simp only [List.length_cons, List.length_map]; omega)]
    congr 1
    simp [eraseKey]
  have hlst_not_mid : lst.1 ∉ mid.map Prod.fst := by
    intro hx
    exact hlst_not (by simp [hx])
  refine SimpleCache.ext ?_ ?_ ?_
  · show insertKey (stateOfList α N now ((k1, v1, t1) :: mid)).evictIfNeeded.cache
      lst.1 ⟨lst.2.1, now + lst.2.2⟩ = _
    rw [hev]
    have : lst.1 ∉ (mid.map (fun it =>
        ((it.1 : String), (⟨it.2.1, now + it.2.2⟩ : CacheEntry α)))).map Prod.fst := by
      rw [show (mid.map (fun it => ((it.1 : String),
        (⟨it.2.1, now + it.2.2⟩ : CacheEntry α)))).map Prod.fst = mid.map Prod.fst from by
          simp [List.map_map]]
      exact hlst_not_mid
    rw [insertKey_of_not_mem _ _ _ this]
    simp [stateOfList]
  · show ((stateOfList α N now ((k1, v1, t1) :: mid)).set lst.1 lst.2.1 lst.2.2
      now).max_size = N
    rw [show ((stateOfList α N now ((k1, v1, t1) :: mid)).set lst.1 lst.2.1 lst.2.2
      now).max_size =
      (stateOfList α N now ((k1, v1, t1) :: mid)).evictIfNeeded.max_size from rfl, hev]
  · show (stateOfList α N now ((k1, v1, t1) :: mid)).evictIfNeeded.access_order.erase
      lst.1 ++ [lst.1] = _
    rw [hev]
    show (mid.map Prod.fst).erase lst.1 ++ [lst.1] = (mid ++ [lst]).map Prod.fst
    rw [List.erase_of_not_mem hlst_not_mid]
    simp

/-- Claim C2: with `max_size = N >= 1`, setting `N+1` distinct keys in
order (positive TTLs, no intervening `get`s) makes exactly the first
key unavailable via `get` while the other `N` keys all still return
their values. -/
theorem claim_C2_lru_eviction (α : Type) (N : ℕ) (now : ℚ)
    (k1 : String) (v1 : α) (t1 : ℚ) (rest : List (String × α × ℚ))
    (hN : 1 ≤ N) (hlen : rest.length = N)
    (hnd : (((k1, v1, t1) :: rest).map Prod.fst).Nodup)
    (hpos : ∀ it ∈ (k1, v1, t1) :: rest, 0 < it.2.2) :
    ((runCache (SimpleCache.init α N)
        (setOps now ((k1, v1, t1) :: rest))).get k1 now).1 = none ∧
    rest.map (fun it => ((runCache (SimpleCache.init α N)
        (setOps now ((k1, v1, t1) :: rest))).get it.1 now).1) =
      rest.map (fun it => some it.2.1) := by
  rcases List.eq_nil_or_concat rest with h0 | ⟨mid, lst, h0⟩
  · rw [h0] at hlen
    simp at hlen
    omega
  rw [List.concat_eq_append] at h0
  subst h0
  have hnd' : (k1 :: (mid.map Prod.fst ++ [lst.1])).Nodup := by simpa using hnd
  have hndmid : (k1 :: mid.map Prod.fst).Nodup :=
    hnd'.sublist (List.Sublist.cons₂ _ (List.sublist_append_left _ _))
  have hlenmid : mid.length + 1 = N := by
    simp only [List.length_append, List.length_singleton] at hlen
    omega
  have hfinal : runCache (SimpleCache.init α N)
      (setOps now ((k1, v1, t1) :: (mid ++ [lst]))) =
      stateOfList α N now (mid ++ [lst]) := by
    rw [show setOps now ((k1, v1, t1) :: (mid ++ [lst])) =
      setOps now ((k1, v1, t1) :: mid) ++ setOps now [lst] from by simp [setOps]]
    rw [show SimpleCache.init α N = stateOfList α N now [] from rfl]
    rw [show runCache (stateOfList α N now [])
        (setOps now ((k1, v1, t1) :: mid) ++ setOps now [lst]) =
      runCache (runCache (stateOfList α N now [])
        (setOps now ((k1, v1, t1) :: mid))) (setOps now [lst]) from by
      simp [runCache, List.foldl_append]]
    rw [runCache_sets_no_evict now ((k1, v1, t1) :: mid) [] N
      (by simpa using hndmid) (by simp only [List.nil_append, List.length_cons]; omega)]
    rw [show ([] ++ ((k1, v1, t1) :: mid)) = ((k1, v1, t1) :: mid) from rfl]
    exact set_evicts_head now k1 v1 t1 mid lst N hlenmid (by simpa using hnd')
  rw [hfinal]
  constructor
  · have hk1no : k1 ∉ (stateOfList α N now (mid ++ [lst])).cache.map Prod.fst := by
      rw [map_fst_stateOfList]
      have : k1 ∉ mid.map Prod.fst ++ [lst.1] := (List.nodup_cons.mp hnd').1
      simpa using this
    have hlk := (lookupKey_eq_none _ _).mpr hk1no
    simp [SimpleCache.get, hlk]
  · apply List.map_congr_left
    intro it hit
    have hmem : (it.1, (⟨it.2.1, now + it.2.2⟩ : CacheEntry α)) ∈
        (stateOfList α N now (mid ++ [lst])).cache :=
      List.mem_map_of_mem _ hit
    have hndkeys : ((stateOfList α N now (mid ++ [lst])).cache.map Prod.fst).Nodup := by
      rw [map_fst_stateOfList]
      exact (List.nodup_cons.mp hnd).2
    have hlk := lookupKey_of_mem_nodup hmem hndkeys
    have httl : (0 : ℚ) < it.2.2 := hpos it (List.mem_cons_of_mem _ hit)
    have hexp : ((⟨it.2.1, now + it.2.2⟩ : CacheEntry α).isExpired now) = false := by
      simp only [CacheEntry.isExpired, decide_eq_false_iff_not, not_lt]
      linarith
    simp [SimpleCache.get, hlk, hexp]

theorem claim_C2_lru_eviction_witness :
    ((runCache (SimpleCache.init ℤ 3)
        (setOps 0 [("k1", 1, 5), ("k2", 2, 5), ("k3", 3, 5), ("k4", 4, 5)])).get
        "k1" 0).1 = none ∧
    ([("k2", (2 : ℤ), (5 : ℚ)), ("k3", 3, 5), ("k4", 4, 5)]).map (fun it =>
      ((runCache (SimpleCache.init ℤ 3)
        (setOps 0 [("k1", 1, 5), ("k2", 2, 5), ("k3", 3, 5), ("k4", 4, 5)])).get
        it.1 0).1) =
      ([("k2", (2 : ℤ), (5 : ℚ)), ("k3", 3, 5), ("k4", 4, 5)]).map
        (fun it => some it.2.1) :=
  claim_C2_lru_eviction ℤ 3 0 "k1" 1 5 [("k2", 2, 5), ("k3", 3, 5), ("k4", 4, 5)]
    (by decide) (by decide) (by decide) (by with_unfolding_all decide)

/-! ## Scoring and risk heuristics (`src/legal_engine.py`) -/

/-- Whether the character pattern occurs at the head of the list. -/
def leadMatch : List Char → List Char → Bool
  | [], _ => true
  | _ :: _, [] => false
  | a :: as, b :: bs => a == b && leadMatch as bs

/-- Whether the character pattern occurs anywhere in the list. -/
def containsChars (pat : List Char) : List Char → Bool
  | [] => pat.isEmpty
  | b :: t => leadMatch pat (b :: t) || containsChars pat t

/-- Python's substring test `pat in s`. -/
def strIn (pat s : String) : Bool := containsChars pat.data s.data

/-- The `RiskItem` dataclass. -/
structure RiskItem where
  severity : String
  description : String
  mitigation : String
  deriving DecidableEq

/-- The `WinningFactor` dataclass (all Python ints). -/
structure WinningFactor where
  element_score : ℤ
  evidence_score : ℤ
  clarity_score : ℤ
  risk_penalty : ℤ
  deriving DecidableEq

/-- The `WinningFactor.overall` property:
`max(0, (element + evidence + clarity) // 3 - risk_penalty)` with
Python's floor division. -/
def WinningFactor.overall (w : WinningFactor) : ℤ :=
  max 0 ((w.element_score + w.evidence_score + w.clarity_score).fdiv 3 -
    w.risk_penalty)

/-- `assess_risks(facts_lowercase)`: keyword-based, one item from the
if/elif/else chain. -/
def assess_risks (fl : String) : List RiskItem :=
  if strIn "inspect" fl || strIn "eye" fl then
    [⟨"medium", "Possible nondisclosure claim", "Show refusal to inspect."⟩]
  else if strIn "oral" fl then
    [⟨"medium", "Potential enforceability issue (oral contract).",
      "Provide corroborating evidence."⟩]
  else
    [⟨"low", "Minor procedural risk", "Ensure timely filing."⟩]

/-- `compute_score(facts, facts_lowercase, evidence_count)`, with the
`base_clarity_score` conditional increment written as the
corresponding if-expression. -/
def compute_score (facts fl : String) (evidence_count : ℕ) : WinningFactor :=
  ⟨90,
   min 100 (70 + (evidence_count : ℤ) * 5),
   min 100 (if strIn "breach" fl then
       (if 60 < facts.length then (80 : ℤ) else 60) + 5
     else (if 60 < facts.length then (80 : ℤ) else 60)),
   if strIn "eye" fl then 10 else 0⟩

theorem overall_bound_aux (ev cl rp : ℤ) (hev1 : 0 ≤ ev) (hev2 : ev ≤ 100)
    (hcl1 : 0 ≤ cl) (hcl2 : cl ≤ 100) (hrp : 0 ≤ rp) :
    max 0 ((90 + ev + cl).fdiv 3 - rp) ≤ 100 := by
  refine max_le (by norm_num) ?_
  rw [Int.fdiv_eq_ediv _ (by norm_num)]
  omega

/-- Claim C9: for every facts string (and its lowercase form) and every
evidence count, the composite score `overall` computed from
`compute_score`'s outputs lies in `[0, 100]` and `assess_risks`
returns a non-empty risk list; concretely, the California/Riverside
horse-sale scenario with two evidence items scores `overall = 83` and
yields the single low-severity procedural risk. -/
theorem claim_C9_score_bounds :
    (∀ (facts fl : String) (n : ℕ),
      0 ≤ (compute_score facts fl n).overall ∧
      (compute_score facts fl n).overall ≤ 100 ∧
      assess_risks fl ≠ []) ∧
    (compute_score
        "Buyer failed to pay $5,000 after taking possession of the horse on January 15, 2025."
        "buyer failed to pay $5,000 after taking possession of the horse on january 15, 2025."
        2).overall = 83 ∧
    assess_risks
        "buyer failed to pay $5,000 after taking possession of the horse on january 15, 2025." =
      [⟨"low", "Minor procedural risk", "Ensure timely filing."⟩] := by
  refine ⟨?_, by decide, by decide⟩
  intro facts fl n
  refine ⟨le_max_left _ _, ?_, ?_⟩
  · refine overall_bound_aux _ _ _ ?_ ?_ ?_ ?_ ?_
    · exact le_min (by norm_num) (by positivity)
    · exact min_le_left _ _
    · refine le_min (by norm_num) ?_
      split_ifs <;> norm_num
    · exact min_le_left _ _
    · simp only [compute_score]
      split_ifs <;> norm_num
  · simp only [assess_risks]
    split_ifs <;> simp

/-! ## Cache key generation (`generate_cache_key` in `src/cache_manager.py`) -/

/-- Python values usable as cache-key arguments (strings and ints
suffice for every call site in the repository). -/
inductive PyVal where
  | str (s : String)
  | int (n : ℤ)
  deriving DecidableEq

/-- One hexadecimal digit, lowercase. -/
def hexChar (n : ℕ) : Char :=
  if n < 10 then Char.ofNat (48 + n) else Char.ofNat (87 + n)

/-- JSON string escaping as `json.dumps` performs it with the default
`ensure_ascii=True`: `"` and `\` get a backslash, the short control
escapes are used where they exist, all other control or non-ASCII
characters become `\uXXXX` (astral characters as surrogate pairs). -/
def jsonEscapeChar (c : Char) : String :=
  if c = '"' then "\\\""
  else if c = '\\' then "\\\\"
  else if c = '\n' then "\\n"
  else if c = '\t' then "\\t"
  else if c = '\r' then "\\r"
  else if c.toNat = 8 then "\\b"
  else if c.toNat = 12 then "\\f"
  else if c.toNat < 32 ∨ 126 < c.toNat then
    if c.toNat < 65536 then
      String.mk ['\\', 'u', hexChar (c.toNat / 4096 % 16), hexChar (c.toNat / 256 % 16),
        hexChar (c.toNat / 16 % 16), hexChar (c.toNat % 16)]
    else
      String.mk ['\\', 'u',
        hexChar ((55296 + (c.toNat - 65536) / 1024) / 4096 % 16),
        hexChar ((55296 + (c.toNat - 65536) / 1024) / 256 % 16),
        hexChar ((55296 + (c.toNat - 65536) / 1024) / 16 % 16),
        hexChar ((55296 + (c.toNat - 65536) / 1024) % 16)] ++
      String.mk ['\\', 'u',
        hexChar ((56320 + (c.toNat - 65536) % 1024) / 4096 % 16),
        hexChar ((56320 + (c.toNat - 65536) % 1024) / 256 % 16),
        hexChar ((56320 + (c.toNat - 65536) % 1024) / 16 % 16),
        hexChar ((56320 + (c.toNat - 65536) % 1024) % 16)]
  else String.singleton c

/-- A JSON string literal. -/
def jsonString (s : String) : String :=
  "\"" ++ String.join (s.data.map jsonEscapeChar) ++ "\""

/-- JSON rendering of one value (`json.dumps` of a str or int). -/
def jsonOfVal : PyVal → String
  | .str s => jsonString s
  | .int n => toString n

/-- JSON rendering of one `(key, value)` pair, which `json.dumps`
serializes as a two-element array. -/
def jsonOfPair (p : String × PyVal) : String :=
  "[" ++ jsonString p.1 ++ ", " ++ jsonOfVal p.2 ++ "]"

/-- The ordering `sorted(kwargs.items())` uses: Python compares the
tuples lexicographically, and since dict keys are unique the string
keys alone decide. -/
def kwLe (a b : String × PyVal) : Prop := a.1 ≤ b.1

instance : DecidableRel kwLe := fun a b => inferInstanceAs (Decidable (a.1 ≤ b.1))

instance : IsTotal (String × PyVal) kwLe := ⟨fun a b => le_total a.1 b.1⟩

instance : IsTrans (String × PyVal) kwLe := ⟨fun _ _ _ h1 h2 => le_trans h1 h2⟩

/-- `sorted(kwargs.items())`. -/
def sortKw (kwargs : List (String × PyVal)) : List (String × PyVal) :=
  List.insertionSort kwLe kwargs

/-- The serialized form
`json.dumps({'args': args, 'kwargs': sorted(kwargs.items())}, sort_keys=True)`
with `json.dumps`'s default separators. -/
def keyStr (args : List PyVal) (kwargs : List (String × PyVal)) : String :=
  "\x7b\"args\": [" ++ String.intercalate ", " (args.map jsonOfVal) ++
    "], \"kwargs\": [" ++ String.intercalate ", " ((sortKw kwargs).map jsonOfPair) ++
    "]\x7d"

/-- The 64 MD5 sine-derived constants (RFC 1321). -/
def md5K : List ℕ :=
  [3614090360, 3905402710, 606105819, 3250441966, 4118548399, 1200080426,
   2821735955, 4249261313, 1770035416, 2336552879, 4294925233, 2304563134,
   1804603682, 4254626195, 2792965006, 1236535329, 4129170786, 3225465664,
   643717713, 3921069994, 3593408605, 38016083, 3634488961, 3889429448,
   568446438, 3275163606, 4107603335, 1163531501, 2850285829, 4243563512,
   1735328473, 2368359562, 4294588738, 2272392833, 1839030562, 4259657740,
   2763975236, 1272893353, 4139469664, 3200236656, 681279174, 3936430074,
   3572445317, 76029189, 3654602809, 3873151461, 530742520, 3299628645,
   4096336452, 1126891415, 2878612391, 4237533241, 1700485571, 2399980690,
   4293915773, 2240044497, 1873313359, 4264355552, 2734768916, 1309151649,
   4149444226, 3174756917, 718787259, 3951481745]

/-- The 64 MD5 per-round left-rotation amounts. -/
def md5S : List ℕ :=
  [7, 12, 17, 22, 7, 12, 17, 22, 7, 12, 17, 22, 7, 12, 17, 22,
   5, 9, 14, 20, 5, 9, 14, 20, 5, 9, 14, 20, 5, 9, 14, 20,
   4, 11, 16, 23, 4, 11, 16, 23, 4, 11, 16, 23, 4, 11, 16, 23,
   6, 10, 15, 21, 6, 10, 15, 21, 6, 10, 15, 21, 6, 10, 15, 21]

/-- 32-bit left rotation (operands below `2^32`). -/
def rotl32 (x n : ℕ) : ℕ := ((x <<< n) % 4294967296) ||| (x >>> (32 - n))

/-- 32-bit bitwise complement. -/
def not32 (x : ℕ) : ℕ := 4294967295 ^^^ x

/-- `count` bytes of `n`, little-endian. -/
def leBytes (n : ℕ) : ℕ → List ℕ
  | 0 => []
  | k + 1 => (n % 256) :: leBytes (n / 256) k

/-- MD5 padding: `0x80`, zeros to 56 mod 64, 8-byte little-endian bit
length. -/
def md5Pad (msg : List ℕ) : List ℕ :=
  msg ++ [128] ++ List.replicate ((120 - ((msg.length + 1) % 64)) % 64) 0 ++
    leBytes ((msg.length * 8) % 18446744073709551616) 8

/-- The `j`-th little-endian 32-bit word of a 64-byte chunk. -/
def md5Word (chunk : List ℕ) (j : ℕ) : ℕ :=
  chunk.getD (4 * j) 0 + 256 * chunk.getD (4 * j + 1) 0 +
    65536 * chunk.getD (4 * j + 2) 0 + 16777216 * chunk.getD (4 * j + 3) 0

/-- One of the 64 MD5 rounds. -/
def md5Round (M : ℕ → ℕ) (st : ℕ × ℕ × ℕ × ℕ) (i : ℕ) : ℕ × ℕ × ℕ × ℕ :=
  let A := st.1
  let B := st.2.1
  let C := st.2.2.1
  let D := st.2.2.2
  let F :=
    if i < 16 then (B &&& C) ||| (not32 B &&& D)
    else if i < 32 then (D &&& B) ||| (not32 D &&& C)
    else if i < 48 then B ^^^ C ^^^ D
    else C ^^^ (B ||| not32 D)
  let g :=
    if i < 16 then i
    else if i < 32 then (5 * i + 1) % 16
    else if i < 48 then (3 * i + 5) % 16
    else (7 * i) % 16
  let Fv := (F + A + md5K.getD i 0 + M g) % 4294967296
  (D, (B + rotl32 Fv (md5S.getD i 0)) % 4294967296, B, C)

/-- Processing one 64-byte chunk. -/
def md5Chunk (st : ℕ × ℕ × ℕ × ℕ) (chunk : List ℕ) : ℕ × ℕ × ℕ × ℕ :=
  let r := (List.range 64).foldl (md5Round (md5Word chunk)) st
  ((st.1 + r.1) % 4294967296, (st.2.1 + r.2.1) % 4294967296,
   (st.2.2.1 + r.2.2.1) % 4294967296, (st.2.2.2 + r.2.2.2) % 4294967296)

/-- The 16-byte MD5 digest of a byte string. -/
def md5Digest (msg : List ℕ) : List ℕ :=
  let padded := md5Pad msg
  let st := (List.range (padded.length / 64)).foldl
    (fun st i => md5Chunk st ((padded.drop (64 * i)).take 64))
    (1732584193, 4023233417, 2562383102, 271733878)
  leBytes st.1 4 ++ leBytes st.2.1 4 ++ leBytes st.2.2.1 4 ++ leBytes st.2.2.2 4

/-- Two lowercase hex characters of one byte. -/
def byteHex (b : ℕ) : String := String.mk [hexChar (b / 16), hexChar (b % 16)]

/-- `hashlib.md5(...).hexdigest()`. -/
def md5Hex (msg : List ℕ) : String := String.join ((md5Digest msg).map byteHex)

/-- The bytes of `key_str.encode()`: `keyStr` output is pure ASCII
(`ensure_ascii=True`), where UTF-8 coincides with the code points. -/
def strBytes (s : String) : List ℕ := s.data.map Char.toNat

/-- `generate_cache_key(*args, **kwargs)`. -/
def generate_cache_key (args : List PyVal) (kwargs : List (String × PyVal)) :
    String :=
  md5Hex (strBytes (keyStr args kwargs))

/-- The strict version of the kwarg ordering, available when all keys
are distinct. -/
def kwLt (a b : String × PyVal) : Prop := a.1 < b.1

instance : IsAntisymm (String × PyVal) kwLt :=
  ⟨fun _ _ h1 h2 => absurd h2 (lt_asymm h1)⟩

theorem sorted_kwLt_of_nodup {l : List (String × PyVal)}
    (hs : List.Sorted kwLe l) (hn : (l.map Prod.fst).Nodup) :
    List.Sorted kwLt l := by
  have hne : List.Pairwise (fun a b : String × PyVal => a.1 ≠ b.1) l :=
    (List.pairwise_map).mp hn
  exact (hs.and hne).imp (fun h => lt_of_le_of_ne h.1 h.2)

/-- With pairwise-distinct keys, the sorted kwarg list depends only on
the kwarg SET: permuting the input leaves `sorted(kwargs.items())`
unchanged. -/
theorem sortKw_eq_of_perm {kw1 kw2 : List (String × PyVal)} (hp : kw1.Perm kw2)
    (hnd : (kw1.map Prod.fst).Nodup) : sortKw kw1 = sortKw kw2 := by
  have hps : (sortKw kw1).Perm (sortKw kw2) :=
    ((List.perm_insertionSort kwLe kw1).trans hp).trans
      (List.perm_insertionSort kwLe kw2).symm
  have hnd1 : ((sortKw kw1).map Prod.fst).Nodup :=
    (((List.perm_insertionSort kwLe kw1).map Prod.fst).nodup_iff).mpr hnd
  have hnd2 : ((sortKw kw2).map Prod.fst).Nodup :=
    ((hps.map Prod.fst).nodup_iff).mp hnd1
  exact List.eq_of_perm_of_sorted hps
    (sorted_kwLt_of_nodup (List.sorted_insertionSort kwLe kw1) hnd1)
    (sorted_kwLt_of_nodup (List.sorted_insertionSort kwLe kw2) hnd2)

set_option maxRecDepth 4096 in
/-- Claim C5: `generate_cache_key` is a pure function of its
arguments: calls with equal positional tuples and equal
keyword-argument sets (any write order, any call site) produce
identical keys; and the key derivation is order-sensitive in the
positional arguments — the function is NOT invariant under permuting
them, witnessed by the concrete distinct-argument permutation
`("a", "b")` vs `("b", "a")`, whose MD5 keys differ.  (A universal
"every permutation changes the key" would additionally require
collision-freedom of MD5, which no one can prove; the serialized
`key_str` underneath is injective in the argument order.) -/
theorem claim_C5_cache_key :
    (∀ (args : List PyVal) (kw1 kw2 : List (String × PyVal)),
      kw1.Perm kw2 → (kw1.map Prod.fst).Nodup →
      generate_cache_key args kw1 = generate_cache_key args kw2) ∧
    (([PyVal.str "a", PyVal.str "b"] : List PyVal).Perm
        [PyVal.str "b", PyVal.str "a"] ∧
      ([PyVal.str "a", PyVal.str "b"] : List PyVal).Nodup ∧
      generate_cache_key [PyVal.str "a", PyVal.str "b"] [] ≠
        generate_cache_key [PyVal.str "b", PyVal.str "a"] []) := by
  constructor
  · intro args kw1 kw2 hp hnd
    simp only [generate_cache_key, keyStr, sortKw_eq_of_perm hp hnd]
  · exact ⟨by decide, by decide, by decide⟩

theorem claim_C5_cache_key_witness :
    generate_cache_key [] [("b", PyVal.int 1), ("a", PyVal.str "x")] =
      generate_cache_key [] [("a", PyVal.str "x"), ("b", PyVal.int 1)] :=
  claim_C5_cache_key.1 [] [("b", PyVal.int 1), ("a", PyVal.str "x")]
    [("a", PyVal.str "x"), ("b", PyVal.int 1)] (by decide) (by decide)

end Outlaw
